import Mathlib

/-!
A verification development for the live transcript / stream-reconciliation and
triggered-regeneration engine of the meeting-minutes feature.

Strings from the TypeScript source are embedded as `List Char`.  JavaScript
string primitives used by the source (`indexOf`, `slice`, `split`, `trim`,
`trimStart`) are given executable models below, and the engine's functions are
direct translations of the corresponding TypeScript functions.
-/

namespace Engine

/-- Model of JavaScript whitespace for `trim`/`trimStart` (ASCII fragment). -/
def isWS (c : Char) : Bool := c.isWhitespace

/-- Model of `String.prototype.trimStart`: drop leading whitespace. -/
def trimStartL (l : List Char) : List Char := l.dropWhile isWS

/-- Drop trailing whitespace. -/
def trimEndL (l : List Char) : List Char := (l.reverse.dropWhile isWS).reverse

/-- Model of `String.prototype.trim`: drop leading and trailing whitespace. -/
def trimL (l : List Char) : List Char := trimEndL (trimStartL l)

/-- Model of `String.prototype.slice(a, b)` for `0 ≤ a`, `0 ≤ b` (clamping). -/
def sliceL (l : List Char) (a b : Nat) : List Char := (l.take b).drop a

/-- Model of `String.prototype.indexOf(pat)`: position of the first occurrence
of `pat`, or `none`.  (`-1` in JavaScript is rendered as `none`.) -/
def findIdxL (pat : List Char) : List Char → Option Nat
  | [] => if pat.isEmpty then some 0 else none
  | c :: rest =>
    if pat.isPrefixOf (c :: rest) then some 0
    else (findIdxL pat rest).map (· + 1)

/-- Model of `String.prototype.indexOf(pat, start)`: first occurrence of `pat`
at position `start` or later. -/
def findIdxFromL (pat l : List Char) (start : Nat) : Option Nat :=
  (findIdxL pat (l.drop start)).map (· + start)

/-- The four sentinel tag strings (`agentSystemPromptGenerator.ts`). -/
def MCP_SERVERS_START_MARKER : List Char := "<SELECTED_MCP_SERVERS>".toList

def MCP_SERVERS_END_MARKER : List Char := "</SELECTED_MCP_SERVERS>".toList

def SYSTEM_PROMPT_START_MARKER : List Char := "<SYSTEM_PROMPT>".toList

def SYSTEM_PROMPT_END_MARKER : List Char := "</SYSTEM_PROMPT>".toList

/-- Translation of `parseMCPServers` (`usePromptGeneration.ts`): both marker
searches run from position 0; returns `none` unless the first end-marker
occurrence lies strictly after the first start-marker occurrence; on success
the content between the markers is split on newlines, each line trimmed, and
empty lines discarded. -/
def parseMCPServers (rawOutput : List Char) : Option (List (List Char)) :=
  match findIdxL MCP_SERVERS_START_MARKER rawOutput,
        findIdxL MCP_SERVERS_END_MARKER rawOutput with
  | some startIndex, some endIndex =>
    if endIndex ≤ startIndex then none
    else
      let content :=
        sliceL rawOutput (startIndex + MCP_SERVERS_START_MARKER.length) endIndex
      some (((content.splitOn '\n').map trimL).filter (fun line => !line.isEmpty))
  | _, _ => none

/-- Translation of `extractSystemPrompt` (`usePromptGeneration.ts`): the end
marker is searched only from the end of the start marker onward; while
streaming (no end marker yet) the tail after the start marker is returned
left-trimmed; once complete the content between the markers is trimmed. -/
def extractSystemPrompt (rawOutput : List Char) : List Char :=
  match findIdxL SYSTEM_PROMPT_START_MARKER rawOutput with
  | none => []
  | some startIndex =>
    let contentStart := startIndex + SYSTEM_PROMPT_START_MARKER.length
    match findIdxFromL SYSTEM_PROMPT_END_MARKER rawOutput contentStart with
    | none => trimStartL (rawOutput.drop contentStart)
    | some endIndex => trimL (sliceL rawOutput contentStart endIndex)

/-! ### Concrete buffers used in counterexamples and witnesses -/

/-- A buffer whose first MCP end marker precedes the start marker, with a
later end marker after the start marker. -/
def c2buf : List Char :=
  "</SELECTED_MCP_SERVERS><SELECTED_MCP_SERVERS>\nx\n</SELECTED_MCP_SERVERS>".toList

/-- A buffer whose first system-prompt end marker precedes the start marker. -/
def c2sysBuf : List Char :=
  "</SYSTEM_PROMPT><SYSTEM_PROMPT>hi</SYSTEM_PROMPT>".toList

/-- An MCP field that is open at end-of-stream. -/
def c6buf : List Char := "<SELECTED_MCP_SERVERS>\nalpha".toList

/-- A system-prompt field that is open at end-of-stream. -/
def c6sysBuf : List Char := "<SYSTEM_PROMPT>  hel".toList

/-- A closed system-prompt buffer. -/
def c3buf : List Char := "<SYSTEM_PROMPT>a</SYSTEM_PROMPT>".toList

/-- A closed MCP-server buffer. -/
def c3mcpBuf : List Char :=
  "<SELECTED_MCP_SERVERS>\na\n</SELECTED_MCP_SERVERS>".toList

/-! ### ChunkDecoder (`streamParser.ts`)

`JSON.parse` is a JavaScript runtime primitive, not code of this repository;
it is abstracted as a `parse` function returning `none` where `JSON.parse`
would throw. -/

/-- One decoded unit from the model-streaming transport (`StreamingChunk`):
the engine reads only its `text` field. -/
structure StreamingChunk where
  text : List Char
deriving DecidableEq

/-- Translation of `parseStreamChunk` (`streamParser.ts`): split the chunk on
newlines, keep lines that are nonempty after trimming, parse each line,
silently skipping lines that fail to parse. -/
def parseStreamChunk (parse : List Char → Option StreamingChunk)
    (chunk : List Char) : List StreamingChunk :=
  ((chunk.splitOn '\n').filter (fun line => !(trimL line).isEmpty)).filterMap parse

/-- Translation of `extractTextFromChunks` (`streamParser.ts`): concatenate the
`text` of each chunk, skipping empty texts. -/
def extractTextFromChunks (chunks : List StreamingChunk) : List Char :=
  (((chunks.filter (fun c => !c.text.isEmpty)).map (fun c => c.text))).flatten

/-! ### usePromptGeneration streaming loop (`usePromptGeneration.ts`)

The consumption loop body of `generate` and the `cancel` action, as a state
machine.  `aborted` models `abortControllerRef.current.signal.aborted`; the
`for await` loop breaks on the first chunk seen after the signal, which for
the derived state is the same as ignoring every later chunk. -/

structure PGState where
  rawOutput : List Char
  generatedPrompt : List Char
  suggestedMCPServers : List (List Char)
  mcpServersParsed : Bool
  isGenerating : Bool
  aborted : Bool
deriving DecidableEq

/-- Translation of one iteration of the `for await` loop in `generate`
(`usePromptGeneration.ts`): abort check, decode, accumulate `rawOutput`,
one-shot MCP-server parse, streaming system-prompt extraction. -/
def processChunk (parse : List Char → Option StreamingChunk)
    (s : PGState) (chunkStr : List Char) : PGState :=
  if s.aborted then s
  else
    let text := extractTextFromChunks (parseStreamChunk parse chunkStr)
    if text.isEmpty then s
    else
      let rawOutput := s.rawOutput ++ text
      let s1 :=
        if !s.mcpServersParsed then
          match parseMCPServers rawOutput with
          | some servers =>
            { s with rawOutput := rawOutput, suggestedMCPServers := servers,
                     mcpServersParsed := true }
          | none => { s with rawOutput := rawOutput }
        else { s with rawOutput := rawOutput }
      let systemPrompt := extractSystemPrompt rawOutput
      if !systemPrompt.isEmpty then { s1 with generatedPrompt := systemPrompt }
      else s1

/-- Translation of `cancel` (`usePromptGeneration.ts`): signal the abort
controller of the in-flight call and clear the generating flag. -/
def cancel (s : PGState) : PGState :=
  { s with aborted := true, isGenerating := false }

/-- A concrete stand-in for `JSON.parse` on two known one-line records,
throwing (`none`) on everything else. -/
def parseW : List Char → Option StreamingChunk := fun l =>
  if l = "a".toList then some { text := "A".toList }
  else if l = "b".toList then some { text := "B".toList }
  else none

/-- Two well-formed single-line records. -/
def c7lines : List (List Char) := ["a".toList, "b".toList]

/-- The same two records with a malformed record between them. -/
def c7mixed : List (List Char) := ["a".toList, "oops".toList, "b".toList]

/-- A concrete in-flight prompt-generation state (not yet aborted). -/
def pgS8 : PGState :=
  { rawOutput := "<SYSTEM_PROMPT>he".toList,
    generatedPrompt := "he".toList, suggestedMCPServers := [],
    mcpServersParsed := false, isGenerating := true, aborted := false }

/-! ### MeetingMinutesGeneration (regeneration scheduler component)

State and transitions of the component.  `generateCalls` counts invocations
of `generateMinutes`. -/

inductive MinutesStyle
  | summary | detail | faq | transcription | diagram | newspaper | whiteboard
  | custom
deriving DecidableEq

structure GenState where
  shouldGenerate : Bool
  countdownSeconds : Int
  minutesLoading : Bool
  autoGenerate : Bool
  transcriptText : List Char
  minutesStyle : MinutesStyle
  customPrompt : List Char
  generateCalls : Nat
deriving DecidableEq

/-- Modelled from the spec: `generateMinutes` of the `useMeetingMinutes` hook
(not under `src/`) starts a generation call; `pending`/`loading` "is true
between a countdown reaching zero and the corresponding generation call
completing". -/
def generateMinutesCall (s : GenState) : GenState :=
  { s with minutesLoading := true, generateCalls := s.generateCalls + 1 }

/-- Modelled from the spec: completion (success or failure) of the in-flight
generation call clears `pending`/`loading`. -/
def completeGeneration (s : GenState) : GenState :=
  { s with minutesLoading := false }

/-- Translation of the interval callback of the countdown effect
(`MeetingMinutesGeneration`, `setInterval` body): decrement; on reaching zero
record a fire in `shouldGenerateRef` and reset to the full cadence. -/
def tick (totalSeconds : Int) (s : GenState) : GenState :=
  let newValue := s.countdownSeconds - 1
  if newValue ≤ 0 then
    { s with shouldGenerate := true, countdownSeconds := totalSeconds }
  else { s with countdownSeconds := newValue }

/-- Translation of the fire-watching effect (`MeetingMinutesGeneration`,
"Watch for generation signal and trigger generation"): when a fire is
recorded, auto-generation is on and the transcript is nonempty, either issue
the call (if not loading) or drop the recorded fire (if loading).  The effect
re-runs after every state change. -/
def generationEffect (s : GenState) : GenState :=
  if s.shouldGenerate && s.autoGenerate && !(trimL s.transcriptText).isEmpty then
    if !s.minutesLoading then
      generateMinutesCall { s with shouldGenerate := false }
    else { s with shouldGenerate := false }
  else s

/-- Translation of `handleManualGeneration` (`MeetingMinutesGeneration`):
reject custom style with empty custom prompt; otherwise generate only when
the transcript is nonempty and no call is loading. -/
def handleManualGeneration (s : GenState) : GenState :=
  if s.minutesStyle = MinutesStyle.custom && (trimL s.customPrompt).isEmpty then s
  else if !(trimL s.transcriptText).isEmpty && !s.minutesLoading then
    generateMinutesCall s
  else s

/-- A concrete countdown state with a generation call in flight
(`minutesLoading = true`), auto-generation enabled and a nonempty
transcript; one call has been issued so far. -/
def genS1 : GenState :=
  { shouldGenerate := false, countdownSeconds := 1, minutesLoading := true,
    autoGenerate := true, transcriptText := "hello".toList,
    minutesStyle := MinutesStyle.summary, customPrompt := [],
    generateCalls := 1 }

/-- `genS1` with a fire already recorded. -/
def genS1f : GenState := { genS1 with shouldGenerate := true }

/-- A state whose transcript is whitespace-only. -/
def genS10 : GenState :=
  { shouldGenerate := true, countdownSeconds := 10, minutesLoading := false,
    autoGenerate := true, transcriptText := "  ".toList,
    minutesStyle := MinutesStyle.summary, customPrompt := [],
    generateCalls := 0 }

/-! ### MeetingMinutesTranscription (transcript reconciler component) -/

inductive Source
  | microphone | screen
deriving DecidableEq

/-- One piece of a transcription result (`Transcript` of the shared package):
text plus optional speaker tag. -/
structure Transcript where
  transcript : List Char
  speakerLabel : Option (List Char)
deriving DecidableEq

structure TranscriptionSegment where
  resultId : List Char
  source : Source
  startTime : Int
  endTime : Int
  isPartial : Bool
  transcripts : List Transcript
  sessionId : Int
deriving DecidableEq

/-- Translation of `updateTranscriptionSegments`
(`MeetingMinutesTranscription.tsx`): replace in place the first segment with
the same `(resultId, source)` key, else append. -/
def updateTranscriptionSegments (prev : List TranscriptionSegment)
    (newSegment : TranscriptionSegment) : List TranscriptionSegment :=
  match prev.findIdx? (fun seg =>
      seg.resultId == newSegment.resultId && seg.source == newSegment.source) with
  | some existingIndex => prev.set existingIndex newSegment
  | none => prev ++ [newSegment]

/-- Recursive characterization of `updateTranscriptionSegments` (replace the
first key match, else append), used by the proofs. -/
def upsertRec : List TranscriptionSegment → TranscriptionSegment →
    List TranscriptionSegment
  | [], n => [n]
  | s :: rest, n =>
    if s.resultId == n.resultId && s.source == n.source then n :: rest
    else s :: upsertRec rest n

/-- The comparator of the display sort (`transcriptionText` and the render
path): "Sort by session ID first, then by time within each session", as the
before-or-equal relation induced by the `Array.prototype.sort` comparator
(comparator value `≤ 0`). -/
def segLE (a b : TranscriptionSegment) : Bool :=
  if a.sessionId = b.sessionId then a.startTime ≤ b.startTime
  else a.sessionId < b.sessionId

/-- The sorted copy `[...transcriptionSegments].sort(...)`; JavaScript's
`Array.prototype.sort` is required to be stable, modelled by `mergeSort`. -/
def sortedSegments (segs : List TranscriptionSegment) :
    List TranscriptionSegment :=
  segs.mergeSort segLE

/-- Translation of `formatTime` (`MeetingMinutesTranscription.tsx`) for
integer seconds: `MM:SS` with zero padding. -/
def formatTime (seconds : Int) : List Char :=
  let pad2 : List Char → List Char := fun s =>
    if s.length < 2 then List.replicate (2 - s.length) '0' ++ s else s
  pad2 (toString (seconds.fdiv 60)).toList ++ [':'] ++
    pad2 (toString (seconds.fmod 60)).toList

/-- The per-segment rendering of `transcriptionText`: one line per piece,
`[MM:SS]` time, speaker label resolved through the mapping with fallback to
the raw tag, text, and a `" (...)"` suffix while partial. -/
def renderSegment (speakerMapping : List (List Char × List Char))
    (segment : TranscriptionSegment) : List Char :=
  let timeStr := ['['] ++ formatTime segment.startTime ++ [']']
  List.intercalate ['\n'] (segment.transcripts.map (fun tr =>
    let speakerText :=
      match tr.speakerLabel with
      | none => []
      | some tag =>
        let mapped :=
          match (speakerMapping.find? (fun p => p.1 == tag)).map Prod.snd with
          | some d => if d.isEmpty then tag else d
          | none => tag
        mapped ++ [':', ' ']
    timeStr ++ [' '] ++ speakerText ++ tr.transcript ++
      (if segment.isPartial then " (...)".toList else [])))

/-- Translation of `transcriptionText` (`MeetingMinutesTranscription.tsx`):
sort the segments, render each, join with newlines. -/
def transcriptionText (speakerMapping : List (List Char × List Char))
    (segs : List TranscriptionSegment) : List Char :=
  List.intercalate ['\n'] ((sortedSegments segs).map (renderSegment speakerMapping))

/-- The component state touched by the clear action. -/
structure TransState where
  transcriptionSegments : List TranscriptionSegment
  currentSessionId : Int
deriving DecidableEq

/-- Translation of `handleClear` (`MeetingMinutesTranscription.tsx`): empty
the merged collection and reset the session counter to 0 (the stop and
clear-buffer calls go to the external transcription hooks). -/
def handleClear (s : TransState) : TransState :=
  { s with transcriptionSegments := [], currentSessionId := 0 }

/-- A partial segment for result `r1` from the microphone. -/
def c4partialSeg : TranscriptionSegment :=
  { resultId := "r1".toList, source := Source.microphone, startTime := 0,
    endTime := 1, isPartial := true,
    transcripts := [{ transcript := "hel".toList, speakerLabel := none }],
    sessionId := 0 }

/-- The final revision of the same `(resultId, source)` key. -/
def c4finalSeg : TranscriptionSegment :=
  { resultId := "r1".toList, source := Source.microphone, startTime := 0,
    endTime := 2, isPartial := false,
    transcripts := [{ transcript := "hello".toList, speakerLabel := none }],
    sessionId := 0 }

/-- Session-0 segment with the later start time. -/
def c5a : TranscriptionSegment :=
  { resultId := "ra".toList, source := Source.microphone, startTime := 5,
    endTime := 6, isPartial := false,
    transcripts := [{ transcript := "first".toList, speakerLabel := none }],
    sessionId := 0 }

/-- Session-1 segment with the earlier start time. -/
def c5b : TranscriptionSegment :=
  { resultId := "rb".toList, source := Source.screen, startTime := 1,
    endTime := 2, isPartial := false,
    transcripts := [{ transcript := "second".toList, speakerLabel := none }],
    sessionId := 1 }

/-! ### Lemmas about the `indexOf` model

The key facts: a match found in a buffer is wholly contained in it, and the
first occurrence is unchanged when the buffer grows on the right. -/

theorem isPrefixOf_length_le {pat l : List Char} (h : pat.isPrefixOf l = true) :
    pat.length ≤ l.length := by
  induction pat generalizing l with
  | nil => simp
  | cons a pa ih =>
    cases l with
    | nil => simp [List.isPrefixOf] at h
    | cons b lb =>
      simp only [List.isPrefixOf, Bool.and_eq_true] at h
      simpa using Nat.succ_le_succ (ih h.2)

theorem isPrefixOf_append_right {pat l : List Char} (t : List Char)
    (h : pat.isPrefixOf l = true) : pat.isPrefixOf (l ++ t) = true := by
  induction pat generalizing l with
  | nil => simp
  | cons a pa ih =>
    cases l with
    | nil => simp [List.isPrefixOf] at h
    | cons b lb =>
      simp only [List.isPrefixOf, Bool.and_eq_true] at h ⊢
      exact ⟨h.1, ih h.2⟩

theorem isPrefixOf_of_append {pat l t : List Char}
    (h : pat.isPrefixOf (l ++ t) = true) (hlen : pat.length ≤ l.length) :
    pat.isPrefixOf l = true := by
  induction pat generalizing l with
  | nil => simp
  | cons a pa ih =>
    cases l with
    | nil => simp at hlen
    | cons b lb =>
      simp only [List.cons_append, List.isPrefixOf, Bool.and_eq_true] at h ⊢
      refine ⟨h.1, ih h.2 ?_⟩
      simpa using Nat.le_of_succ_le_succ hlen

theorem findIdxL_nil_eq_some {pat : List Char} {i : Nat}
    (h : findIdxL pat [] = some i) : pat = [] ∧ i = 0 := by
  by_cases hp : pat.isEmpty
  · simp only [findIdxL, hp, if_pos] at h
    cases h
    exact ⟨List.isEmpty_iff.mp hp, rfl⟩
  · simp [findIdxL, hp] at h

theorem findIdxL_bound {pat l : List Char} {i : Nat}
    (h : findIdxL pat l = some i) : i + pat.length ≤ l.length := by
  induction l generalizing i with
  | nil =>
    obtain ⟨h1, h2⟩ := findIdxL_nil_eq_some h
    simp [h1, h2]
  | cons c rest ih =>
    by_cases hp : pat.isPrefixOf (c :: rest) = true
    · rw [findIdxL, if_pos hp] at h
      cases h
      simpa using isPrefixOf_length_le hp
    · rw [findIdxL, if_neg hp, Option.map_eq_some'] at h
      obtain ⟨j, hj, rfl⟩ := h
      have := ih hj
      simp only [List.length_cons]
      omega

theorem findIdxL_append {pat l : List Char} {i : Nat} (t : List Char)
    (h : findIdxL pat l = some i) : findIdxL pat (l ++ t) = some i := by
  induction l generalizing i with
  | nil =>
    obtain ⟨h1, h2⟩ := findIdxL_nil_eq_some h
    subst h1; subst h2
    cases t with
    | nil => simp [findIdxL]
    | cons c rest => simp [findIdxL, List.isPrefixOf]
  | cons c rest ih =>
    by_cases hp : pat.isPrefixOf (c :: rest) = true
    · rw [findIdxL, if_pos hp] at h
      cases h
      have hp3 : pat.isPrefixOf (c :: (rest ++ t)) = true := by
        have := isPrefixOf_append_right t hp
        simpa using this
      rw [List.cons_append, findIdxL, if_pos hp3]
    · rw [findIdxL, if_neg hp, Option.map_eq_some'] at h
      obtain ⟨j, hj, rfl⟩ := h
      have hb := findIdxL_bound hj
      have hp2 : ¬ pat.isPrefixOf (c :: (rest ++ t)) = true := by
        intro hcontra
        -- a new match at the head would have to run past the end of `c :: rest`,
        -- impossible because a full match already exists inside `rest`
        have hlen : pat.length ≤ (c :: rest).length := by
          simp only [List.length_cons]; omega
        have hc2 : pat.isPrefixOf ((c :: rest) ++ t) = true := by
          simpa using hcontra
        exact hp (isPrefixOf_of_append hc2 hlen)
      rw [List.cons_append, findIdxL, if_neg hp2, ih hj]
      rfl

theorem findIdxFromL_append {pat l : List Char} {k i : Nat} (t : List Char)
    (hk : k ≤ l.length) (h : findIdxFromL pat l k = some i) :
    findIdxFromL pat (l ++ t) k = some i := by
  simp only [findIdxFromL, Option.map_eq_some'] at h ⊢
  obtain ⟨j, hj, rfl⟩ := h
  refine ⟨j, ?_, rfl⟩
  have hdrop : (l ++ t).drop k = l.drop k ++ t := by
    rw [List.drop_append_eq_append_drop]
    have : k - l.length = 0 := by omega
    rw [this]
    simp
  rw [hdrop]
  exact findIdxL_append t hj

theorem findIdxFromL_bound {pat l : List Char} {k i : Nat}
    (hk : k ≤ l.length) (h : findIdxFromL pat l k = some i) :
    i + pat.length ≤ l.length := by
  simp only [findIdxFromL, Option.map_eq_some'] at h
  obtain ⟨j, hj, rfl⟩ := h
  have := findIdxL_bound hj
  simp only [List.length_drop] at this
  omega

theorem sliceL_append {l : List Char} (t : List Char) {a b : Nat}
    (hb : b ≤ l.length) : sliceL (l ++ t) a b = sliceL l a b := by
  unfold sliceL
  rw [List.take_append_eq_append_take]
  have : b - l.length = 0 := by
    omega
  rw [this]
  simp

/-! ### Claim C2 — MarkerExtractor end-sentinel positioning -/

/-- C2 counterexample: in `c2buf` the first MCP end marker is at position 0,
before the start marker at position 23, and a later end marker follows the
start marker at position 48; the claim says the field is recognized as closed
(with value `["x"]`), but `parseMCPServers` searches the end marker from
position 0 and returns `none`. -/
theorem C2_counterexample :
    findIdxL MCP_SERVERS_END_MARKER c2buf = some 0 ∧
    findIdxL MCP_SERVERS_START_MARKER c2buf = some 23 ∧
    findIdxFromL MCP_SERVERS_END_MARKER c2buf
      (23 + MCP_SERVERS_START_MARKER.length) = some 48 ∧
    parseMCPServers c2buf = none ∧
    parseMCPServers c2buf ≠ some ["x".toList] := by
  refine ⟨by decide, by decide, by decide, by decide, by decide⟩

/-- C2 (amended): the system-prompt extractor searches its end sentinel only
after the position of the start sentinel, so a buffer in which the end
sentinel occurs before the start sentinel still closes using the later end
occurrence; the MCP-server extractor instead searches its end sentinel from
the beginning of the buffer and yields `none` (field not closed) whenever the
first end occurrence is not strictly after the first start occurrence. -/
theorem C2_amended :
    (∀ (buf : List Char) (s e2 : Nat),
        findIdxL SYSTEM_PROMPT_START_MARKER buf = some s →
        findIdxFromL SYSTEM_PROMPT_END_MARKER buf
          (s + SYSTEM_PROMPT_START_MARKER.length) = some e2 →
        extractSystemPrompt buf =
          trimL (sliceL buf (s + SYSTEM_PROMPT_START_MARKER.length) e2)) ∧
    (∀ (buf : List Char) (s e : Nat),
        findIdxL MCP_SERVERS_START_MARKER buf = some s →
        findIdxL MCP_SERVERS_END_MARKER buf = some e →
        e ≤ s →
        parseMCPServers buf = none) := by
  constructor
  · intro buf s e2 hs he
    simp only [extractSystemPrompt, hs, he]
  · intro buf s e hS hE hle
    simp only [parseMCPServers, hS, hE]
    rw [if_pos hle]

/-- C2 witness: the amended theorem applied to `c2sysBuf` (system prompt
closes at the later end marker) and to `c2buf` (MCP parse yields `none`). -/
theorem C2_witness :
    findIdxL SYSTEM_PROMPT_START_MARKER c2sysBuf = some 16 ∧
    findIdxFromL SYSTEM_PROMPT_END_MARKER c2sysBuf
      (16 + SYSTEM_PROMPT_START_MARKER.length) = some 33 ∧
    extractSystemPrompt c2sysBuf =
      trimL (sliceL c2sysBuf (16 + SYSTEM_PROMPT_START_MARKER.length) 33) ∧
    parseMCPServers c2buf = none :=
  ⟨by decide, by decide,
    C2_amended.1 c2sysBuf 16 33 (by decide) (by decide),
    C2_amended.2 c2buf 23 0 (by decide) (by decide) (by omega)⟩

/-! ### Claim C3 — MarkerExtractor idempotence under monotonic growth

Both extraction functions are pure functions of the accumulated buffer, so
feeding a chain of prefixes `b1 ⊆ … ⊆ bn` amounts to evaluating them at each
prefix; the theorem states that once a field is closed at some prefix `b`,
it stays closed with the same sentinel positions and the same value at every
extension `b ++ t` — in particular at `bn`, whose one-shot extraction
therefore agrees with the value first produced at closing time. -/

/-- C3: once closed, a field never un-closes and its value never changes as
the buffer grows; the final value equals one-shot extraction on the full
buffer. -/
theorem C3_extraction_monotone (b t : List Char) :
    (∀ s e, findIdxL SYSTEM_PROMPT_START_MARKER b = some s →
        findIdxFromL SYSTEM_PROMPT_END_MARKER b
          (s + SYSTEM_PROMPT_START_MARKER.length) = some e →
        findIdxL SYSTEM_PROMPT_START_MARKER (b ++ t) = some s ∧
        findIdxFromL SYSTEM_PROMPT_END_MARKER (b ++ t)
          (s + SYSTEM_PROMPT_START_MARKER.length) = some e ∧
        extractSystemPrompt (b ++ t) = extractSystemPrompt b) ∧
    (∀ v, parseMCPServers b = some v → parseMCPServers (b ++ t) = some v) := by
  constructor
  · intro s e hs he
    have hsb := findIdxL_bound hs
    have hcs : s + SYSTEM_PROMPT_START_MARKER.length ≤ b.length := hsb
    have hs2 := findIdxL_append t hs
    have he2 := findIdxFromL_append t hcs he
    refine ⟨hs2, he2, ?_⟩
    have heb := findIdxFromL_bound hcs he
    simp only [extractSystemPrompt, hs, hs2, he, he2]
    rw [sliceL_append t (by omega)]
  · intro v hv
    cases hS : findIdxL MCP_SERVERS_START_MARKER b with
    | none => simp [parseMCPServers, hS] at hv
    | some s =>
      cases hE : findIdxL MCP_SERVERS_END_MARKER b with
      | none => simp [parseMCPServers, hS, hE] at hv
      | some e =>
        simp only [parseMCPServers, hS, hE] at hv
        by_cases hle : e ≤ s
        · rw [if_pos hle] at hv
          cases hv
        · rw [if_neg hle] at hv
          have hS2 := findIdxL_append t hS
          have hE2 := findIdxL_append t hE
          have heb := findIdxL_bound hE
          simp only [parseMCPServers, hS2, hE2]
          rw [if_neg hle, sliceL_append t (by omega)]
          exact hv

/-- C3 witness: the theorem applied to the closed buffers `c3buf` and
`c3mcpBuf` extended by extra streamed text. -/
theorem C3_witness :
    findIdxL SYSTEM_PROMPT_START_MARKER c3buf = some 0 ∧
    findIdxFromL SYSTEM_PROMPT_END_MARKER c3buf
      (0 + SYSTEM_PROMPT_START_MARKER.length) = some 16 ∧
    extractSystemPrompt (c3buf ++ "XTRA".toList) = extractSystemPrompt c3buf ∧
    parseMCPServers c3mcpBuf = some ["a".toList] ∧
    parseMCPServers (c3mcpBuf ++ "XTRA".toList) = some ["a".toList] :=
  ⟨by decide, by decide,
    ((C3_extraction_monotone c3buf "XTRA".toList).1 0 16 (by decide)
      (by decide)).2.2,
    by decide,
    (C3_extraction_monotone c3mcpBuf "XTRA".toList).2 ["a".toList] (by decide)⟩

/-! ### Claim C6 — MarkerExtractor open-field surfacing -/

/-- C6 counterexample: the MCP (list-typed) field is open in `c6buf` (start
marker present at 0, no end marker); the claim says the consumer receives the
best-effort open value `"alpha"`, but `parseMCPServers` returns `none` and the
consumer receives nothing for that field. -/
theorem C6_counterexample :
    findIdxL MCP_SERVERS_START_MARKER c6buf = some 0 ∧
    findIdxL MCP_SERVERS_END_MARKER c6buf = none ∧
    trimStartL (c6buf.drop MCP_SERVERS_START_MARKER.length) = "alpha".toList ∧
    parseMCPServers c6buf = none := by
  refine ⟨by decide, by decide, by decide, by decide⟩

/-- C6 (amended): for the free-text system-prompt field the claim holds — an
open field surfaces the substring after the start sentinel, left-trimmed
only, and this is not an error; the MCP list field instead surfaces nothing
(`none`) while open. -/
theorem C6_amended :
    (∀ (buf : List Char) (s : Nat),
        findIdxL SYSTEM_PROMPT_START_MARKER buf = some s →
        findIdxFromL SYSTEM_PROMPT_END_MARKER buf
          (s + SYSTEM_PROMPT_START_MARKER.length) = none →
        extractSystemPrompt buf =
          trimStartL (buf.drop (s + SYSTEM_PROMPT_START_MARKER.length))) ∧
    (∀ buf : List Char,
        findIdxL MCP_SERVERS_END_MARKER buf = none →
        parseMCPServers buf = none) := by
  constructor
  · intro buf s hs he
    simp only [extractSystemPrompt, hs, he]
  · intro buf hE
    cases hS : findIdxL MCP_SERVERS_START_MARKER buf with
    | none => simp [parseMCPServers, hS, hE]
    | some s => simp [parseMCPServers, hS, hE]

/-- C6 witness: the amended theorem applied to the open buffers `c6sysBuf`
(system prompt surfaces `"hel"`) and `c6buf` (MCP parse yields `none`). -/
theorem C6_witness :
    findIdxL SYSTEM_PROMPT_START_MARKER c6sysBuf = some 0 ∧
    findIdxFromL SYSTEM_PROMPT_END_MARKER c6sysBuf
      (0 + SYSTEM_PROMPT_START_MARKER.length) = none ∧
    extractSystemPrompt c6sysBuf =
      trimStartL (c6sysBuf.drop (0 + SYSTEM_PROMPT_START_MARKER.length)) ∧
    findIdxL MCP_SERVERS_END_MARKER c6buf = none ∧
    parseMCPServers c6buf = none :=
  ⟨by decide, by decide, C6_amended.1 c6sysBuf 0 (by decide) (by decide),
    by decide, C6_amended.2 c6buf (by decide)⟩

/-! ### Claim C7 — ChunkDecoder correctness -/

/-- Helper: `filterMap` over lines that all parse successfully keeps one
event per line. -/
theorem length_filterMap_of_isSome {parse : List Char → Option StreamingChunk}
    {lines : List (List Char)} (h : ∀ l ∈ lines, (parse l).isSome = true) :
    (lines.filterMap parse).length = lines.length := by
  induction lines with
  | nil => rfl
  | cons a rest ih =>
    have ha := h a (List.mem_cons_self a rest)
    obtain ⟨v, hv⟩ := Option.isSome_iff_exists.mp ha
    rw [List.filterMap_cons, hv]
    simp only [List.length_cons]
    rw [ih (fun l hl => h l (List.mem_cons_of_mem a hl))]

/-- C7: decoding a newline-join of single-line records yields the
order-preserving `filterMap` of the records (lines failing to parse are
dropped without affecting siblings); when every line is nonempty after
trimming and parses, exactly one event per line is produced; the empty chunk
decodes to the empty list. -/
theorem C7_parseStreamChunk (parse : List Char → Option StreamingChunk) :
    (∀ lines : List (List Char), (∀ l ∈ lines, ('\n') ∉ l) →
        parseStreamChunk parse (List.intercalate ['\n'] lines) =
          (lines.filter (fun l => !(trimL l).isEmpty)).filterMap parse) ∧
    (∀ lines : List (List Char), (∀ l ∈ lines, ('\n') ∉ l) →
        (∀ l ∈ lines, (trimL l).isEmpty = false ∧ (parse l).isSome = true) →
        (parseStreamChunk parse (List.intercalate ['\n'] lines)).length =
          lines.length) ∧
    parseStreamChunk parse [] = [] := by
  have h1 : ∀ lines : List (List Char), (∀ l ∈ lines, ('\n') ∉ l) →
      parseStreamChunk parse (List.intercalate ['\n'] lines) =
        (lines.filter (fun l => !(trimL l).isEmpty)).filterMap parse := by
    intro lines hnl
    cases lines with
    | nil => rfl
    | cons a rest =>
      unfold parseStreamChunk
      rw [List.splitOn_intercalate (a :: rest) '\n' hnl (by simp)]
  refine ⟨h1, ?_, ?_⟩
  · intro lines hnl hval
    rw [h1 lines hnl]
    have hfil : lines.filter (fun l => !(trimL l).isEmpty) = lines := by
      apply List.filter_eq_self.mpr
      intro l hl
      rw [(hval l hl).1]
      rfl
    rw [hfil]
    exact length_filterMap_of_isSome (fun l hl => (hval l hl).2)
  · rfl

/-- C7 witness: the theorem applied to the two-record chunk `"a\nb"` with the
concrete parser `parseW`, and to the empty chunk. -/
theorem C7_witness :
    (∀ l ∈ c7lines, ('\n') ∉ l) ∧
    parseStreamChunk parseW (List.intercalate ['\n'] c7lines) =
      [{ text := "A".toList }, { text := "B".toList }] ∧
    (parseStreamChunk parseW (List.intercalate ['\n'] c7lines)).length = 2 ∧
    parseStreamChunk parseW (List.intercalate ['\n'] c7mixed) =
      [{ text := "A".toList }, { text := "B".toList }] ∧
    parseStreamChunk parseW [] = [] :=
  ⟨by decide,
    ((C7_parseStreamChunk parseW).1 c7lines (by decide)).trans (by decide),
    ((C7_parseStreamChunk parseW).2.1 c7lines (by decide) (by decide)).trans
      rfl,
    ((C7_parseStreamChunk parseW).1 c7mixed (by decide)).trans (by decide),
    (C7_parseStreamChunk parseW).2.2⟩

/-! ### Claim C8 — cancellation semantics -/

/-- Helper: a chunk arriving after the abort signal changes nothing. -/
theorem processChunk_aborted {parse : List Char → Option StreamingChunk}
    {s : PGState} (h : s.aborted = true) (c : List Char) :
    processChunk parse s c = s := by
  simp [processChunk, h]

/-- C8: after `cancel`, folding any further transport chunks through the
consumption loop leaves the state untouched (no MarkerField updates);
equally, any single chunk seen while aborted is ignored; a second `cancel`
is a no-op, not an error, and `cancel` clears the generating flag. -/
theorem C8_cancellation (parse : List Char → Option StreamingChunk)
    (s : PGState) :
    (∀ chunks : List (List Char),
        chunks.foldl (processChunk parse) (cancel s) = cancel s) ∧
    (s.aborted = true → ∀ c, processChunk parse s c = s) ∧
    cancel (cancel s) = cancel s ∧
    (cancel s).isGenerating = false := by
  refine ⟨?_, fun h c => processChunk_aborted h c, rfl, rfl⟩
  intro chunks
  induction chunks with
  | nil => rfl
  | cons c rest ih =>
    rw [List.foldl_cons, processChunk_aborted rfl c, ih]

/-- C8 witness: the theorem applied to the concrete in-flight state `pgS8`
after cancelling, with two buffered chunks still arriving. -/
theorem C8_witness :
    (cancel pgS8).aborted = true ∧
    List.foldl (processChunk (fun _ => none)) (cancel pgS8)
      ["llo</SYSTEM_PROMPT>".toList, "tail".toList] = cancel pgS8 ∧
    cancel (cancel pgS8) = cancel pgS8 ∧
    (cancel pgS8).isGenerating = false :=
  ⟨rfl,
    (C8_cancellation (fun _ => none) pgS8).1
      ["llo</SYSTEM_PROMPT>".toList, "tail".toList],
    (C8_cancellation (fun _ => none) pgS8).2.2.1,
    (C8_cancellation (fun _ => none) pgS8).2.2.2⟩

/-! ### Claim C1 — RegenerationScheduler coalescing -/

/-- C1 counterexample: starting from `genS1` (call in flight, one call made),
a countdown fire is recorded (`tick`), the watcher effect runs and issues no
second call, the call completes, and the effect runs again — yet the call
count stays 1 and the fire flag is clear: the recorded fire was dropped, not
honored, contradicting "upon completion exactly one more fire is honored". -/
theorem C1_counterexample :
    (tick 60 genS1).shouldGenerate = true ∧
    (generationEffect (tick 60 genS1)).generateCalls = 1 ∧
    (generationEffect (completeGeneration
      (generationEffect (tick 60 genS1)))).generateCalls = 1 ∧
    (generationEffect (completeGeneration
      (generationEffect (tick 60 genS1)))).shouldGenerate = false := by
  refine ⟨by decide, by decide, by decide, by decide⟩

/-- C1 (amended): a fire recorded while a generation call is in flight issues
no second call; the watcher effect clears the recorded fire while the call is
pending, so upon completion zero (not one) further generation calls are
issued until the countdown fires again. -/
theorem C1_amended (s : GenState)
    (hfire : s.shouldGenerate = true) (hload : s.minutesLoading = true)
    (hauto : s.autoGenerate = true)
    (htxt : (trimL s.transcriptText).isEmpty = false) :
    generationEffect s = { s with shouldGenerate := false } ∧
    (generationEffect s).generateCalls = s.generateCalls ∧
    (generationEffect (completeGeneration (generationEffect s))).generateCalls
      = s.generateCalls := by
  have h1 : generationEffect s = { s with shouldGenerate := false } := by
    simp [generationEffect, hfire, hload, hauto, htxt]
  refine ⟨h1, by rw [h1], ?_⟩
  rw [h1]
  simp [completeGeneration, generationEffect]

/-- C1 witness: the amended theorem applied to `genS1f` (fire recorded while
a call is in flight). -/
theorem C1_witness :
    genS1f.shouldGenerate = true ∧ genS1f.minutesLoading = true ∧
    genS1f.autoGenerate = true ∧
    (trimL genS1f.transcriptText).isEmpty = false ∧
    (generationEffect genS1f).generateCalls = genS1f.generateCalls ∧
    (generationEffect (completeGeneration
      (generationEffect genS1f))).generateCalls = genS1f.generateCalls :=
  ⟨rfl, rfl, rfl, by decide,
    (C1_amended genS1f rfl rfl rfl (by decide)).2.1,
    (C1_amended genS1f rfl rfl rfl (by decide)).2.2⟩

/-! ### Claim C10 — implicit empty-transcript gate -/

/-- C10: with an empty or whitespace-only transcript no generation call of
any origin is issued: the watcher effect leaves the whole state (including
the recorded fire flag) unchanged, and a manual trigger is silently
ignored. -/
theorem C10_empty_transcript_gate (s : GenState)
    (h : (trimL s.transcriptText).isEmpty = true) :
    generationEffect s = s ∧ handleManualGeneration s = s := by
  constructor
  · simp [generationEffect, h]
  · simp [handleManualGeneration, h]

/-- C10 witness: the theorem applied to `genS10`, whose transcript is
whitespace-only and whose fire flag is set. -/
theorem C10_witness :
    (trimL genS10.transcriptText).isEmpty = true ∧
    generationEffect genS10 = genS10 ∧
    handleManualGeneration genS10 = genS10 :=
  ⟨by decide,
    (C10_empty_transcript_gate genS10 (by decide)).1,
    (C10_empty_transcript_gate genS10 (by decide)).2⟩

/-! ### Claim C4 — TranscriptReconciler de-duplication -/

/-- `updateTranscriptionSegments` replaces the first key match, else
appends. -/
theorem updateTranscriptionSegments_eq_upsertRec
    (prev : List TranscriptionSegment) (n : TranscriptionSegment) :
    updateTranscriptionSegments prev n = upsertRec prev n := by
  induction prev with
  | nil => rfl
  | cons s rest ih =>
    unfold updateTranscriptionSegments upsertRec
    rw [List.findIdx?_cons]
    by_cases hp : (s.resultId == n.resultId && s.source == n.source) = true
    · rw [if_pos hp]
      rw [if_pos hp]
      rfl
    · rw [if_neg hp, if_neg hp, List.findIdx?_succ]
      cases hr : rest.findIdx?
          (fun seg => seg.resultId == n.resultId && seg.source == n.source) with
      | none =>
        simp only [hr, Option.map_none', List.cons_append]
        simp only [updateTranscriptionSegments, hr] at ih
        rw [ih]
      | some j =>
        simp only [hr, Option.map_some', List.set_cons_succ]
        simp only [updateTranscriptionSegments, hr] at ih
        rw [ih]

theorem mem_upsertRec {l : List TranscriptionSegment}
    {n b : TranscriptionSegment} (h : b ∈ upsertRec l n) : b ∈ l ∨ b = n := by
  induction l with
  | nil =>
    simp only [upsertRec, List.mem_singleton] at h
    exact Or.inr h
  | cons s rest ih =>
    unfold upsertRec at h
    by_cases hp : (s.resultId == n.resultId && s.source == n.source) = true
    · rw [if_pos hp] at h
      rcases List.mem_cons.mp h with h1 | h2
      · exact Or.inr h1
      · exact Or.inl (List.mem_cons_of_mem s h2)
    · rw [if_neg hp] at h
      rcases List.mem_cons.mp h with h1 | h2
      · exact Or.inl (h1 ▸ List.mem_cons_self s rest)
      · rcases ih h2 with h3 | h4
        · exact Or.inl (List.mem_cons_of_mem s h3)
        · exact Or.inr h4

theorem upsertRec_pairwiseKeys {l : List TranscriptionSegment}
    {n : TranscriptionSegment}
    (h : l.Pairwise (fun a b => (a.resultId, a.source) ≠ (b.resultId, b.source))) :
    (upsertRec l n).Pairwise
      (fun a b => (a.resultId, a.source) ≠ (b.resultId, b.source)) := by
  induction l with
  | nil => simp [upsertRec]
  | cons s rest ih =>
    rw [List.pairwise_cons] at h
    obtain ⟨hs, hrest⟩ := h
    unfold upsertRec
    by_cases hp : (s.resultId == n.resultId && s.source == n.source) = true
    · rw [if_pos hp, List.pairwise_cons]
      refine ⟨?_, hrest⟩
      intro b hb
      have hkey : s.resultId = n.resultId ∧ s.source = n.source := by
        simpa only [Bool.and_eq_true, beq_iff_eq] using hp
      rw [← hkey.1, ← hkey.2]
      exact hs b hb
    · rw [if_neg hp, List.pairwise_cons]
      refine ⟨?_, ih hrest⟩
      intro b hb
      rcases mem_upsertRec hb with h1 | h2
      · exact hs b h1
      · subst h2
        intro hcontra
        simp only [Prod.mk.injEq] at hcontra
        exact hp (by simp [hcontra.1, hcontra.2])

theorem upsertRec_replace {l : List TranscriptionSegment}
    {n : TranscriptionSegment}
    (h : ∃ s ∈ l, s.resultId = n.resultId ∧ s.source = n.source) :
    (upsertRec l n).length = l.length ∧ n ∈ upsertRec l n := by
  induction l with
  | nil => simp at h
  | cons s rest ih =>
    unfold upsertRec
    by_cases hp : (s.resultId == n.resultId && s.source == n.source) = true
    · rw [if_pos hp]
      simp
    · rw [if_neg hp]
      obtain ⟨x, hx, hk⟩ := h
      rcases List.mem_cons.mp hx with h1 | h2
      · exact absurd (by simp [h1 ▸ hk.1, h1 ▸ hk.2]) hp
      · have hih := ih ⟨x, h2, hk⟩
        refine ⟨by simp [hih.1], List.mem_cons_of_mem s hih.2⟩

/-- C4: after any sequence of upserts starting from the empty collection, the
merged collection holds pairwise-distinct `(resultId, source)` keys (at most
one entry per key); when the key already exists the upsert replaces in place
(same length, new segment present — last write wins); a partial segment
followed by a final segment with the same key yields exactly the final
segment. -/
theorem C4_dedup_invariant :
    (∀ ss : List TranscriptionSegment,
        (ss.foldl updateTranscriptionSegments []).Pairwise
          (fun a b => (a.resultId, a.source) ≠ (b.resultId, b.source))) ∧
    (∀ (prev : List TranscriptionSegment) (n : TranscriptionSegment),
        (∃ s ∈ prev, s.resultId = n.resultId ∧ s.source = n.source) →
        (updateTranscriptionSegments prev n).length = prev.length ∧
        n ∈ updateTranscriptionSegments prev n) ∧
    updateTranscriptionSegments
      (updateTranscriptionSegments [] c4partialSeg) c4finalSeg =
      [c4finalSeg] := by
  refine ⟨?_, ?_, by decide⟩
  · intro ss
    have hgen : ∀ acc : List TranscriptionSegment,
        acc.Pairwise
          (fun a b => (a.resultId, a.source) ≠ (b.resultId, b.source)) →
        (ss.foldl updateTranscriptionSegments acc).Pairwise
          (fun a b => (a.resultId, a.source) ≠ (b.resultId, b.source)) := by
      induction ss with
      | nil =>
        intro acc h
        exact h
      | cons x rest ih =>
        intro acc h
        rw [List.foldl_cons]
        apply ih
        rw [updateTranscriptionSegments_eq_upsertRec]
        exact upsertRec_pairwiseKeys h
    exact hgen [] (by simp)
  · intro prev n h
    rw [updateTranscriptionSegments_eq_upsertRec]
    exact upsertRec_replace h

/-- C4 witness: replacing the partial `r1` segment by its final revision
keeps exactly one entry, which is the final one. -/
theorem C4_witness :
    (∃ s ∈ [c4partialSeg], s.resultId = c4finalSeg.resultId ∧
        s.source = c4finalSeg.source) ∧
    (updateTranscriptionSegments [c4partialSeg] c4finalSeg).length = 1 ∧
    c4finalSeg ∈ updateTranscriptionSegments [c4partialSeg] c4finalSeg :=
  ⟨by decide,
    (C4_dedup_invariant.2.1 [c4partialSeg] c4finalSeg (by decide)).1,
    (C4_dedup_invariant.2.1 [c4partialSeg] c4finalSeg (by decide)).2⟩

/-! ### Claim C5 — TranscriptReconciler display ordering -/

theorem segLE_total : ∀ a b : TranscriptionSegment,
    (segLE a b || segLE b a) = true := by
  intro a b
  simp only [segLE]
  by_cases h : a.sessionId = b.sessionId
  · rw [if_pos h, if_pos h.symm]
    simp only [Bool.or_eq_true, decide_eq_true_eq]
    omega
  · rw [if_neg h, if_neg (fun hh => h hh.symm)]
    simp only [Bool.or_eq_true, decide_eq_true_eq]
    omega

theorem segLE_trans : ∀ a b c : TranscriptionSegment,
    segLE a b = true → segLE b c = true → segLE a c = true := by
  intro a b c hab hbc
  simp only [segLE] at hab hbc ⊢
  by_cases h1 : a.sessionId = b.sessionId <;>
    by_cases h2 : b.sessionId = c.sessionId <;>
      by_cases h3 : a.sessionId = c.sessionId <;>
        simp_all <;> omega

/-- Stability of the display sort: filtering by any property that relates its
holders under `segLE` commutes with sorting. -/
theorem filter_mergeSort_stable (p : TranscriptionSegment → Bool)
    (hp : ∀ a b, p a = true → p b = true → segLE a b = true)
    (l : List TranscriptionSegment) :
    (l.mergeSort segLE).filter p = l.filter p := by
  have hperm : ((l.mergeSort segLE).filter p).Perm (l.filter p) :=
    (List.mergeSort_perm l segLE).filter p
  have hpair : (l.filter p).Pairwise (fun a b => segLE a b = true) := by
    apply List.pairwise_of_forall_mem_list
    intro a ha b hb
    exact hp a b (List.mem_filter.mp ha).2 (List.mem_filter.mp hb).2
  have hsub : List.Sublist (l.filter p) (l.mergeSort segLE) :=
    List.sublist_mergeSort segLE_trans segLE_total hpair (List.filter_sublist l)
  have hsub2 : List.Sublist (l.filter p) ((l.mergeSort segLE).filter p) := by
    have h3 := hsub.filter p
    rwa [List.filter_eq_self.mpr
      (fun a ha => (List.mem_filter.mp ha).2)] at h3
  exact (hsub2.eq_of_length hperm.length_eq.symm).symm

/-- C5: the rendered sequence is sorted by `sessionId` then `startTime`
(every adjacent pair satisfies the comparator); the sort is stable — the
subsequence of segments with any fixed `(sessionId, startTime)` key is
exactly their insertion-order subsequence; and the concrete pair
`{sessionId 0, startTime 5}`, `{sessionId 1, startTime 1}` renders with the
session-0 segment first. -/
theorem C5_display_ordering :
    (∀ segs : List TranscriptionSegment,
        (sortedSegments segs).Pairwise (fun a b => segLE a b = true)) ∧
    (∀ (segs : List TranscriptionSegment) (k : Int × Int),
        (sortedSegments segs).filter
            (fun s => (s.sessionId, s.startTime) == k) =
          segs.filter (fun s => (s.sessionId, s.startTime) == k)) ∧
    sortedSegments [c5b, c5a] = [c5a, c5b] ∧
    transcriptionText [] [c5b, c5a] =
      renderSegment [] c5a ++ ['\n'] ++ renderSegment [] c5b := by
  have hf : segLE c5b c5a = false := by decide
  have hconc : sortedSegments [c5b, c5a] = [c5a, c5b] := by
    unfold sortedSegments
    rw [List.mergeSort]
    simp [List.splitInTwo, List.splitAt, List.splitAt.go,
      List.mergeSort_singleton, List.merge, hf]
  refine ⟨?_, ?_, hconc, ?_⟩
  · intro segs
    exact List.sorted_mergeSort segLE_trans segLE_total segs
  · intro segs k
    apply filter_mergeSort_stable
    intro a b ha hb
    have ha2 : (a.sessionId, a.startTime) = k := by
      simpa only [beq_iff_eq] using ha
    have hb2 : (b.sessionId, b.startTime) = k := by
      simpa only [beq_iff_eq] using hb
    have hk : a.sessionId = b.sessionId ∧ a.startTime = b.startTime := by
      rw [← hb2] at ha2
      simpa only [Prod.mk.injEq] using ha2
    simp only [segLE, if_pos hk.1, decide_eq_true_eq, hk.2, le_refl]
  · rw [transcriptionText, hconc]
    decide

/-! ### Claim C9 — clear semantics -/

/-- C9: `handleClear` empties the merged collection and resets the session
counter to 0, and the subsequent render of the merged view is the empty
text (no segments). -/
theorem C9_clear (sm : List (List Char × List Char)) (s : TransState) :
    (handleClear s).transcriptionSegments = [] ∧
    (handleClear s).currentSessionId = 0 ∧
    transcriptionText sm (handleClear s).transcriptionSegments = [] := by
  refine ⟨rfl, rfl, ?_⟩
  simp [transcriptionText, sortedSegments, handleClear, List.intercalate]

end Engine
